import Mathlib

/-!
Verification of the markdown-to-pdf repository's core logic against its
natural-language specification.  The definitions below are shallow
embeddings of the TypeScript source: the pagination loop, frontmatter
parser and image renderer of src/components/Preview.tsx, the AI service
layer of src/services/geminiService.ts, and the AI action handler of
src/App.tsx.  Strings are modelled as lists of characters, DOM element
heights (offsetHeight) as natural numbers, and the outcome of the external
text-generation call as an Except value.
-/

namespace MarkdownToPdf

/-- Strings of the embedding: JavaScript strings as lists of characters. -/
abbrev Str := List Char

/-- One top-level rendered element of the markdown body, as the pagination
loop in Preview.tsx sees it: its serialized markup (outerHTML), its measured
rendered height (offsetHeight, a non-negative integer), and whether its
class list carries the page-break marker class. -/
structure Block where
  content : Str
  height : Nat
  isBreak : Bool
deriving DecidableEq, Repr

/-- The body of the pagination loop of Preview.tsx (the for-loop over the
measured children plus the final push of the last non-empty page).  State:
the pages already closed, the current page (a list of outerHTML strings, as
in the source), and the running height accumulator. -/
def pagRun (maxH : Nat) : List Block → List (List Str) → List Str → Nat → List (List Str)
  | [], pages, cur, _ => if cur = [] then pages else pages ++ [cur]
  | b :: bs, pages, cur, curH =>
    if b.isBreak then
      if cur = [] then pagRun maxH bs pages cur curH
      else pagRun maxH bs (pages ++ [cur]) [] 0
    else if maxH < curH + b.height ∧ cur ≠ [] then
      pagRun maxH bs (pages ++ [cur]) [b.content] b.height
    else
      pagRun maxH bs pages (cur ++ [b.content]) (curH + b.height)

/-- The paginate function of Preview.tsx: run the loop from the empty state
and, if no page was produced, emit the single empty-content fallback page
(the source pushes the page containing one empty string). -/
def paginate (blocks : List Block) (maxH : Nat) : List (List Str) :=
  let ps := pagRun maxH blocks [] [] 0
  if ps = [] then [[([] : Str)]] else ps

/-- The same loop, recording the whole block instead of only its serialized
content, so that per-page height sums can be stated.  The branching and the
accumulator are identical to pagRun. -/
def pagRunB (maxH : Nat) : List Block → List (List Block) → List Block → Nat → List (List Block)
  | [], pages, cur, _ => if cur = [] then pages else pages ++ [cur]
  | b :: bs, pages, cur, curH =>
    if b.isBreak then
      if cur = [] then pagRunB maxH bs pages cur curH
      else pagRunB maxH bs (pages ++ [cur]) [] 0
    else if maxH < curH + b.height ∧ cur ≠ [] then
      pagRunB maxH bs (pages ++ [cur]) [b] b.height
    else
      pagRunB maxH bs pages (cur ++ [b]) (curH + b.height)

/-- Block-level pagination: the loop from the empty state, without the
string-level fallback page (which contains no block). -/
def paginateB (blocks : List Block) (maxH : Nat) : List (List Block) :=
  pagRunB maxH blocks [] [] 0

/-- Total measured height of the blocks assigned to one page. -/
def pageHeight (pg : List Block) : Nat :=
  (pg.map Block.height).sum

/-- One step of the pagination algorithm as the specification words it for a
non-break block: append the block to the current page and add its height to
the accumulator, except when the accumulator plus the block height exceeds
the maximum and the current page is non-empty, in which case the current
page is closed and a new page is started containing only that block, with
the accumulator set to the block height. -/
def specStep (maxH : Nat) (st : List (List Str) × List Str × Nat) (b : Block) :
    List (List Str) × List Str × Nat :=
  let (pages, cur, acc) := st
  if maxH < acc + b.height ∧ cur ≠ [] then (pages ++ [cur], [b.content], b.height)
  else (pages, cur ++ [b.content], acc + b.height)

/-- The pagination algorithm as the specification words it, for a block list
without break markers: fold the per-block step over the blocks starting from
the empty state (accumulator 0), then close the final non-empty page, and
fall back to one empty-content page when no page was produced (steps 3 and 4
of the specification's algorithm). -/
def specPaginate (blocks : List Block) (maxH : Nat) : List (List Str) :=
  let st := blocks.foldl (specStep maxH) ([], [], 0)
  let ps := if st.2.1 = [] then st.1 else st.1 ++ [st.2.1]
  if ps = [] then [[([] : Str)]] else ps

/-- The page-height invariant: a page's total measured height stays within
the budget, except for a page holding a single oversized block. -/
def pageOk (maxH : Nat) (pg : List Block) : Prop :=
  pageHeight pg ≤ maxH ∨ ∃ b, pg = [b] ∧ maxH < b.height

/-- True when the first list is an initial segment of the second. -/
def isStart : Str → Str → Bool
  | [], _ => true
  | _ :: _, [] => false
  | p :: ps, c :: cs => decide (p = c) && isStart ps cs

/-- The opening delimiter of a frontmatter block: a line that is exactly
three hyphens, with its terminator. -/
def fmOpen : Str := "---\n".toList

/-- The closing pattern of the frontmatter regex: a newline, a line of three
hyphens, and the line terminator after it. -/
def fmClose : Str := "\n---\n".toList

/-- The lazy group of the frontmatter regex of Preview.tsx: scanning left to
right, split the text at the first occurrence of the closing pattern,
returning the (shortest possible) inner text and the remainder after the
closing delimiter line. -/
def findClose : Str → Option (Str × Str)
  | [] => none
  | c :: cs =>
    if isStart fmClose (c :: cs) then some ([], (c :: cs).drop 5)
    else
      match findClose cs with
      | some (g, b) => some (c :: g, b)
      | none => none

/-- The regex match of parseFrontmatter: the text must begin with the
opening delimiter line, and the rest must contain the closing pattern; the
match yields the inner text and the body after the block. -/
def fmMatch (text : Str) : Option (Str × Str) :=
  if isStart fmOpen text then findClose (text.drop 4) else none

/-- JavaScript String.prototype.trim: whitespace stripped from both ends. -/
def jsTrim (s : Str) : Str :=
  ((s.dropWhile Char.isWhitespace).reverse.dropWhile Char.isWhitespace).reverse

/-- JavaScript String.prototype.split on a one-character separator: the list
of separated segments (the empty string splits to one empty segment). -/
def splitOn (sep : Char) : Str → List Str
  | [] => [[]]
  | c :: cs =>
    if c = sep then [] :: splitOn sep cs
    else
      match splitOn sep cs with
      | [] => [[c]]
      | h :: t => (c :: h) :: t

/-- One line of the frontmatter block, as parseFrontmatter processes it:
split on the colon; with at least two parts, the trimmed first part is the
key and the rest, rejoined on colons and trimmed, is the value (a later
assignment to the same key overwrites, which configLookup models by taking
the last entry); a line without a colon produces no entry. -/
def parseConfigLine (cfg : List (Str × Str)) (line : Str) : List (Str × Str) :=
  match splitOn ':' line with
  | k :: v :: vs => cfg ++ [(jsTrim k, jsTrim (List.intercalate [':'] (v :: vs)))]
  | _ => cfg

/-- The parseFrontmatter function of Preview.tsx: when the frontmatter regex
matches, the inner lines become the configuration and the text after the
block becomes the content; otherwise the configuration is empty and the
content is the input unchanged. -/
def parseFrontmatter (text : Str) : List (Str × Str) × Str :=
  match fmMatch text with
  | some (g, body) => ((splitOn '\n' g).foldl parseConfigLine [], body)
  | none => ([], text)

/-- JavaScript object lookup on the parsed configuration: the value of the
last assignment to the key, if any. -/
def configLookup (cfg : List (Str × Str)) (k : Str) : Option Str :=
  (cfg.reverse.find? (fun p => p.1 == k)).map (fun p => p.2)

/-- ASCII lowercasing, as toLowerCase acts on the layout directives. -/
def lowerStr (s : Str) : Str := s.map Char.toLower

/-- The directive-to-class if-chain of the image renderer in Preview.tsx. -/
def classFor (hash : Str) : Str :=
  if hash = "left".toList then "align-left".toList
  else if hash = "right".toList then "align-right".toList
  else if hash = "center".toList then "align-center".toList
  else if hash = "full".toList then "align-full".toList
  else if hash = "float-left".toList then "float-left".toList
  else if hash = "float-right".toList then "float-right".toList
  else if hash = "half".toList then "width-half".toList
  else if hash = "third".toList then "width-third".toList
  else []

/-- The custom image renderer of Preview.tsx, after normalization of the two
calling conventions: a non-string URL yields empty output; otherwise the URL
is split on the hash sign, the first segment is the source, the second
segment (lowercased, when present and non-empty) selects the class, and the
title, alt and class attributes are emitted only when non-empty. -/
def image (href title text : Option Str) : Str :=
  match href with
  | none => []
  | some h =>
    let parts := splitOn '#' h
    let url := parts.headD []
    let hash :=
      match parts[1]? with
      | some r => if r = [] then [] else lowerStr r
      | none => []
    let className := classFor hash
    let titleAttr :=
      match title with
      | some t => if t = [] then [] else " title=\"".toList ++ t ++ "\"".toList
      | none => []
    let altAttr :=
      match text with
      | some t => if t = [] then [] else " alt=\"".toList ++ t ++ "\"".toList
      | none => []
    let classAttr :=
      if className = [] then [] else " class=\"".toList ++ className ++ "\"".toList
    "<img src=\"".toList ++ url ++ "\"".toList ++ titleAttr ++ altAttr ++ classAttr
      ++ " />".toList

/-- The specification's directive-to-class table, applied to the lowercased
directive with exact matching: the comparison definition for the image
claim. -/
def specDirectiveClass (d : Str) : Option Str :=
  let l := lowerStr d
  if l = "left".toList then some "align-left".toList
  else if l = "right".toList then some "align-right".toList
  else if l = "center".toList then some "align-center".toList
  else if l = "full".toList then some "align-full".toList
  else if l = "float-left".toList then some "float-left".toList
  else if l = "float-right".toList then some "float-right".toList
  else if l = "half".toList then some "width-half".toList
  else if l = "third".toList then some "width-third".toList
  else none

/-- The error message enhanceMarkdown throws when the external call fails. -/
def enhanceFailMsg : Str :=
  "Failed to enhance text. Please check your API key and try again.".toList

/-- The enhanceMarkdown function of geminiService.ts.  The outcome of the
external text-generation call is passed in as an Except value; the function
returns the empty string before any call when the trimmed input is empty,
returns the response text (or the original text when the response is empty)
on success, and throws its own error message on failure. -/
def enhanceMarkdown (text instruction : Str) (api : Except Str Str) : Except Str Str :=
  if jsTrim text = [] then Except.ok []
  else
    match api with
    | Except.ok r => Except.ok (if r = [] then text else r)
    | Except.error _ => Except.error enhanceFailMsg

/-- The generateTableOfContents function of geminiService.ts: on success the
response text (or the empty string), and on failure of the external call the
error is caught and the empty string is returned — this function never
throws. -/
def generateTableOfContents (text : Str) (api : Except Str Str) : Except Str Str :=
  match api with
  | Except.ok r => Except.ok r
  | Except.error _ => Except.ok []

/-- The four AI-enhancement actions of App.tsx. -/
inductive AiAction
  | grammar
  | professional
  | toc
  | summarize
deriving DecidableEq, Repr

/-- The instruction text App.tsx passes to enhanceMarkdown for each
non-table-of-contents action. -/
def instructionFor : AiAction → Str
  | AiAction.grammar => "Fix grammar and spelling mistakes.".toList
  | AiAction.professional =>
      "Rewrite this to sound more professional and authoritative.".toList
  | AiAction.summarize => "Provide a summary of this content at the beginning.".toList
  | AiAction.toc => []

/-- The handleAiAction function of App.tsx, restricted to its effect on the
document buffer: for the table-of-contents action the generated text plus
two newlines is prepended to the buffer; for the other actions the buffer is
replaced by the enhanceMarkdown result; a thrown error is caught and leaves
the buffer as it was. -/
def handleAiAction (action : AiAction) (markdown : Str) (api : Except Str Str) : Str :=
  match action with
  | AiAction.toc =>
    match generateTableOfContents markdown api with
    | Except.ok t => t ++ "\n\n".toList ++ markdown
    | Except.error _ => markdown
  | a =>
    match enhanceMarkdown markdown (instructionFor a) api with
    | Except.ok t => t
    | Except.error _ => markdown

/-- A JavaScript number as parseFloat can produce it: NaN, a signed
infinity, or a finite value (modelled as a rational). -/
inductive JsNum
  | nan
  | inf (neg : Bool)
  | val (q : ℚ)
deriving DecidableEq, Repr

/-- The numeric value of a digit string. -/
def digitsVal (ds : Str) : Nat :=
  ds.foldl (fun acc c => 10 * acc + (c.toNat - 48)) 0

/-- An optional leading sign: whether it is a minus, and the rest. -/
def readSign : Str → Bool × Str
  | '-' :: s => (true, s)
  | '+' :: s => (false, s)
  | s => (false, s)

/-- The optional exponent suffix of a decimal literal: an exponent marker
followed by an optional sign and digits; without digits (or without the
marker) the exponent is zero and nothing is consumed. -/
def readExp (s : Str) : Int :=
  match s with
  | c :: rest =>
    if c = 'e' ∨ c = 'E' then
      let p := readSign rest
      let ds := p.2.takeWhile Char.isDigit
      if ds = [] then 0
      else if p.1 then -(digitsVal ds : Int) else (digitsVal ds : Int)
    else 0
  | [] => 0

/-- JavaScript parseFloat: leading whitespace is skipped, then an optional
sign, then either the Infinity literal or a decimal literal (integer part
and/or fraction, with an optional exponent); when no prefix forms a literal
the result is NaN.  Finite values are exact rationals. -/
def jsParseFloat (s : Str) : JsNum :=
  let s1 := s.dropWhile Char.isWhitespace
  let p := readSign s1
  let s2 := p.2
  if isStart "Infinity".toList s2 then JsNum.inf p.1
  else
    let ip := s2.takeWhile Char.isDigit
    let s3 := s2.dropWhile Char.isDigit
    match s3 with
    | '.' :: s4 =>
      let fp := s4.takeWhile Char.isDigit
      let s5 := s4.dropWhile Char.isDigit
      if ip = [] ∧ fp = [] then JsNum.nan
      else
        let m : ℚ := (digitsVal ip : ℚ) + (digitsVal fp : ℚ) / (10 : ℚ) ^ fp.length
        let v : ℚ := m * (10 : ℚ) ^ readExp s5
        JsNum.val (if p.1 then -v else v)
    | _ =>
      if ip = [] then JsNum.nan
      else
        let v : ℚ := (digitsVal ip : ℚ) * (10 : ℚ) ^ readExp s3
        JsNum.val (if p.1 then -v else v)

/-- The configuration key of the background opacity. -/
def bgOpacityKey : Str := "bg-opacity".toList

/-- The background opacity computation of the Preview component: when the
configuration value is present and non-empty it is given to parseFloat,
otherwise the opacity is 1. -/
def bgOpacity (cfg : List (Str × Str)) : JsNum :=
  match configLookup cfg bgOpacityKey with
  | some v => if v = [] then JsNum.val 1 else jsParseFloat v
  | none => JsNum.val 1

/-! ## Lemmas about the pagination loop -/

/-- Flattening the pages produced by the loop yields the pages already
closed, then the current page, then the contents of the remaining non-break
blocks in source order. -/
theorem pagRun_join (maxH : Nat) (bs : List Block) :
    ∀ (pages : List (List Str)) (cur : List Str) (curH : Nat),
      (pagRun maxH bs pages cur curH).flatten =
        pages.flatten ++ cur ++ (bs.filter (fun b => !b.isBreak)).map Block.content := by
  induction bs with
  | nil =>
    intro pages cur curH
    by_cases hc : cur = [] <;> simp [pagRun, hc]
  | cons b bs ih =>
    intro pages cur curH
    by_cases hb : b.isBreak = true
    · by_cases hc : cur = []
      · simp [pagRun, hb, hc, ih]
      · simp [pagRun, hb, hc, ih]
    · by_cases hcond : maxH < curH + b.height ∧ cur ≠ []
      · simp [pagRun, hb, hcond, ih, List.filter_cons]
      · simp [pagRun, hb, hcond, ih, List.filter_cons]

/-- The loop never emits an empty page: pages are closed only when
non-empty. -/
theorem pagRun_ne_nil (maxH : Nat) (bs : List Block) :
    ∀ (pages : List (List Str)) (cur : List Str) (curH : Nat),
      (∀ pg ∈ pages, pg ≠ []) →
      ∀ pg ∈ pagRun maxH bs pages cur curH, pg ≠ [] := by
  induction bs with
  | nil =>
    intro pages cur curH hp pg hpg
    by_cases hc : cur = []
    · rw [pagRun, if_pos hc] at hpg
      exact hp pg hpg
    · rw [pagRun, if_neg hc] at hpg
      rcases List.mem_append.1 hpg with h | h
      · exact hp pg h
      · rw [List.mem_singleton] at h
        exact h ▸ hc
  | cons b bs ih =>
    intro pages cur curH hp pg hpg
    by_cases hb : b.isBreak = true
    · by_cases hc : cur = []
      · rw [pagRun, if_pos hb, if_pos hc] at hpg
        exact ih pages cur curH hp pg hpg
      · rw [pagRun, if_pos hb, if_neg hc] at hpg
        refine ih (pages ++ [cur]) [] 0 ?_ pg hpg
        intro q hq
        rcases List.mem_append.1 hq with h | h
        · exact hp q h
        · rw [List.mem_singleton] at h
          exact h ▸ hc
    · rw [pagRun, if_neg hb] at hpg
      by_cases hcond : maxH < curH + b.height ∧ cur ≠ []
      · rw [if_pos hcond] at hpg
        refine ih (pages ++ [cur]) [b.content] b.height ?_ pg hpg
        intro q hq
        rcases List.mem_append.1 hq with h | h
        · exact hp q h
        · rw [List.mem_singleton] at h
          exact h ▸ hcond.2
      · rw [if_neg hcond] at hpg
        exact ih pages (cur ++ [b.content]) (curH + b.height) hp pg hpg

/-- Starting from an empty current page, a run over break markers only
returns the pages unchanged. -/
theorem pagRun_all_breaks (maxH : Nat) (bs : List Block)
    (h : ∀ b ∈ bs, b.isBreak = true) :
    ∀ (pages : List (List Str)) (curH : Nat), pagRun maxH bs pages [] curH = pages := by
  induction bs with
  | nil => intro pages curH; simp [pagRun]
  | cons b bs ih =>
    intro pages curH
    have hb : b.isBreak = true := h b (List.mem_cons_self b bs)
    rw [pagRun, if_pos hb, if_pos rfl]
    exact ih (fun x hx => h x (List.mem_cons_of_mem b hx)) pages curH

/-- On a break-free block list the loop coincides with the fold of the
specification's per-block step, followed by the close of the final
non-empty page. -/
theorem pagRun_no_breaks (maxH : Nat) (bs : List Block)
    (h : ∀ b ∈ bs, b.isBreak = false) :
    ∀ (pages : List (List Str)) (cur : List Str) (curH : Nat),
      pagRun maxH bs pages cur curH =
        (let st := bs.foldl (specStep maxH) (pages, cur, curH)
         if st.2.1 = [] then st.1 else st.1 ++ [st.2.1]) := by
  induction bs with
  | nil => intro pages cur curH; simp [pagRun]
  | cons b bs ih =>
    intro pages cur curH
    have hb : b.isBreak = false := h b (List.mem_cons_self b bs)
    have h' : ∀ x ∈ bs, x.isBreak = false := fun x hx => h x (List.mem_cons_of_mem b hx)
    rw [pagRun, if_neg (by simp [hb])]
    by_cases hcond : maxH < curH + b.height ∧ cur ≠ []
    · rw [if_pos hcond, ih h']
      simp only [List.foldl_cons, specStep, if_pos hcond]
    · rw [if_neg hcond, ih h']
      simp only [List.foldl_cons, specStep, if_neg hcond]

/-- The string-level loop is the block-level loop with each page projected
to the contents of its blocks. -/
theorem pagRun_eq_map (maxH : Nat) (bs : List Block) :
    ∀ (pages : List (List Block)) (cur : List Block) (curH : Nat),
      pagRun maxH bs (pages.map (List.map Block.content)) (cur.map Block.content) curH =
        (pagRunB maxH bs pages cur curH).map (List.map Block.content) := by
  induction bs with
  | nil =>
    intro pages cur curH
    by_cases hc : cur = [] <;>
      simp [pagRun, pagRunB, hc, List.map_eq_nil_iff]
  | cons b bs ih =>
    intro pages cur curH
    by_cases hb : b.isBreak = true
    · by_cases hc : cur = []
      · simpa [pagRun, pagRunB, hb, hc, List.map_eq_nil_iff] using ih pages cur curH
      · have := ih (pages ++ [cur]) [] 0
        simpa [pagRun, pagRunB, hb, hc, List.map_eq_nil_iff] using this
    · by_cases hcond : maxH < curH + b.height ∧ cur ≠ []
      · have := ih (pages ++ [cur]) [b] b.height
        simp [pagRun, pagRunB, hb, hcond, List.map_eq_nil_iff] at this ⊢
        simpa using this
      · have := ih pages (cur ++ [b]) (curH + b.height)
        simp [pagRun, pagRunB, hb, hcond, List.map_eq_nil_iff] at this ⊢
        simpa using this

/-- Every page of the block-level run satisfies the page-height
invariant, provided the pages closed so far do and the accumulator is the
height of the current page. -/
theorem pagRunB_inv (maxH : Nat) (bs : List Block) :
    ∀ (pages : List (List Block)) (cur : List Block) (curH : Nat),
      (∀ pg ∈ pages, pageOk maxH pg) →
      curH = pageHeight cur →
      pageOk maxH cur →
      ∀ pg ∈ pagRunB maxH bs pages cur curH, pageOk maxH pg := by
  induction bs with
  | nil =>
    intro pages cur curH hp hH hcur pg hpg
    by_cases hc : cur = []
    · rw [pagRunB, if_pos hc] at hpg
      exact hp pg hpg
    · rw [pagRunB, if_neg hc] at hpg
      rcases List.mem_append.1 hpg with h | h
      · exact hp pg h
      · rw [List.mem_singleton] at h
        exact h ▸ hcur
  | cons b bs ih =>
    intro pages cur curH hp hH hcur pg hpg
    have hsingle : pageOk maxH [b] := by
      rcases le_or_lt b.height maxH with hle | hlt
      · exact Or.inl (by simp [pageHeight, hle])
      · exact Or.inr ⟨b, rfl, hlt⟩
    by_cases hb : b.isBreak = true
    · by_cases hc : cur = []
      · rw [pagRunB, if_pos hb, if_pos hc] at hpg
        exact ih pages cur curH hp hH hcur pg hpg
      · rw [pagRunB, if_pos hb, if_neg hc] at hpg
        refine ih (pages ++ [cur]) [] 0 ?_ (by simp [pageHeight]) (Or.inl (by simp [pageHeight])) pg hpg
        intro q hq
        rcases List.mem_append.1 hq with h | h
        · exact hp q h
        · rw [List.mem_singleton] at h
          exact h ▸ hcur
    · rw [pagRunB, if_neg hb] at hpg
      by_cases hcond : maxH < curH + b.height ∧ cur ≠ []
      · rw [if_pos hcond] at hpg
        refine ih (pages ++ [cur]) [b] b.height ?_ (by simp [pageHeight]) hsingle pg hpg
        intro q hq
        rcases List.mem_append.1 hq with h | h
        · exact hp q h
        · rw [List.mem_singleton] at h
          exact h ▸ hcur
      · rw [if_neg hcond] at hpg
        have hH' : curH + b.height = pageHeight (cur ++ [b]) := by
          simp [pageHeight, hH]
        have hcur' : pageOk maxH (cur ++ [b]) := by
          rcases Decidable.not_and_iff_or_not.1 hcond with hle | hc
          · exact Or.inl (by rw [← hH']; exact Nat.le_of_not_lt hle)
          · have hc' : cur = [] := Decidable.not_not.1 hc
            subst hc'
            simpa using hsingle
        exact ih pages (cur ++ [b]) (curH + b.height) hp hH' hcur' pg hpg

/-- The string-level pagination is the block-level pagination with each page
projected to its blocks' contents, except that the empty result becomes the
fallback page. -/
theorem paginate_eq_paginateB (blocks : List Block) (maxH : Nat) :
    paginate blocks maxH =
      if paginateB blocks maxH = [] then [[([] : Str)]]
      else (paginateB blocks maxH).map (List.map Block.content) := by
  have h := pagRun_eq_map maxH blocks [] [] 0
  simp only [List.map_nil] at h
  simp only [paginate, paginateB]
  rw [h]
  by_cases hE : pagRunB maxH blocks [] [] 0 = []
  · simp [hE]
  · simp [hE, List.map_eq_nil_iff]

/-! ## The claims -/

/-- C1: on a break-free block list with (inherently non-negative) heights,
paginate is exactly the greedy accumulator algorithm the claim describes —
each block is appended to the current page and its height added to the
accumulator, except that when the accumulator plus the block height exceeds
the budget and the current page is non-empty, the page is closed and a new
page starts with only that block — and in particular heights 400, 400, 400
with budget 1000 give exactly the two pages b1-b2 and b3. -/
theorem c1_paginate_accumulator (blocks : List Block) (maxH : Nat)
    (h : ∀ b ∈ blocks, b.isBreak = false) :
    paginate blocks maxH = specPaginate blocks maxH ∧
    paginate [Block.mk "b1".toList 400 false, Block.mk "b2".toList 400 false,
        Block.mk "b3".toList 400 false] 1000 =
      [["b1".toList, "b2".toList], ["b3".toList]] := by
  refine ⟨?_, by decide⟩
  simp only [paginate, specPaginate]
  rw [pagRun_no_breaks maxH blocks h [] [] 0]

/-- Witness for C1 at the claim's concrete input. -/
theorem c1_witness :
    (paginate [Block.mk "b1".toList 400 false, Block.mk "b2".toList 400 false,
        Block.mk "b3".toList 400 false] 1000 =
      specPaginate [Block.mk "b1".toList 400 false, Block.mk "b2".toList 400 false,
        Block.mk "b3".toList 400 false] 1000) ∧
    paginate [Block.mk "b1".toList 400 false, Block.mk "b2".toList 400 false,
        Block.mk "b3".toList 400 false] 1000 =
      [["b1".toList, "b2".toList], ["b3".toList]] :=
  c1_paginate_accumulator
    [Block.mk "b1".toList 400 false, Block.mk "b2".toList 400 false,
      Block.mk "b3".toList 400 false] 1000 (by decide)

/-- C2 (amended): when the input holds at least one non-break block,
concatenating the pages in order reproduces exactly the contents of the
non-break blocks in source order, with break markers removed and no block
dropped or duplicated.  When no non-break block exists the output is the
single fallback page holding one empty string, whose entry corresponds to
no input block (see the counterexample). -/
theorem c2_content_preserved (blocks : List Block) (maxH : Nat)
    (h : ∃ b ∈ blocks, b.isBreak = false) :
    (paginate blocks maxH).flatten =
      (blocks.filter (fun b => !b.isBreak)).map Block.content := by
  have hj := pagRun_join maxH blocks [] [] 0
  simp only [List.flatten_nil, List.nil_append] at hj
  have hne : (blocks.filter (fun b => !b.isBreak)).map Block.content ≠ [] := by
    rcases h with ⟨b, hb, hbrk⟩
    have hmem : b ∈ blocks.filter (fun b => !b.isBreak) := by
      rw [List.mem_filter]
      exact ⟨hb, by simp [hbrk]⟩
    intro hcon
    rw [List.map_eq_nil_iff] at hcon
    rw [hcon] at hmem
    exact absurd hmem (List.not_mem_nil b)
  simp only [paginate]
  by_cases hE : pagRun maxH blocks [] [] 0 = []
  · exfalso
    rw [hE] at hj
    simp only [List.flatten_nil] at hj
    exact hne hj.symm
  · rw [if_neg hE]
    exact hj

/-- Counterexample for C2 as stated: for the empty input the flattened
output is the one-entry fallback page, not the empty content sequence of
the (break-marker-free) input. -/
theorem c2_counterexample :
    (paginate [] 1000).flatten ≠
      ((List.filter (fun b => !b.isBreak) ([] : List Block)).map Block.content) := by
  decide

/-- Witness for C2 at a concrete one-block input. -/
theorem c2_witness :
    (paginate [Block.mk "a".toList 1 false] 10).flatten =
      ((List.filter (fun b => !b.isBreak) [Block.mk "a".toList 1 false]).map
        Block.content) :=
  c2_content_preserved [Block.mk "a".toList 1 false] 10 (by decide)

/-- C3: every page of the (block-level) pagination output keeps the sum of
its blocks' heights within the budget unless it consists of one single
oversized block; an oversized block is always alone on its page; and
pagination is a total function, so no error is ever raised. -/
theorem c3_page_height_invariant (blocks : List Block) (maxH : Nat)
    (pg : List Block) (hpg : pg ∈ paginateB blocks maxH) :
    (pageHeight pg ≤ maxH ∨ ∃ b, pg = [b] ∧ maxH < b.height) ∧
    (∀ b ∈ pg, maxH < b.height → pg = [b]) := by
  have h1 : pageOk maxH pg := by
    refine pagRunB_inv maxH blocks [] [] 0 ?_ ?_ ?_ pg hpg
    · intro q hq
      exact absurd hq (List.not_mem_nil q)
    · simp [pageHeight]
    · exact Or.inl (by simp [pageHeight])
  refine ⟨h1, ?_⟩
  intro b hb hBig
  rcases h1 with hle | ⟨c, hc, hbig'⟩
  · exfalso
    have hmem : b.height ∈ pg.map Block.height := List.mem_map_of_mem Block.height hb
    have hsum : b.height ≤ pageHeight pg := by
      unfold pageHeight
      exact List.single_le_sum (fun x _ => Nat.zero_le x) _ hmem
    omega
  · rw [hc] at hb ⊢
    rw [List.mem_singleton] at hb
    rw [hb]

/-- Witness for C3 at a concrete oversized one-block input. -/
theorem c3_witness :
    (pageHeight [Block.mk "a".toList 2000 false] ≤ 1000 ∨
      ∃ b, [Block.mk "a".toList 2000 false] = [b] ∧ 1000 < b.height) ∧
    (∀ b ∈ [Block.mk "a".toList 2000 false], 1000 < b.height →
      [Block.mk "a".toList 2000 false] = [b]) :=
  c3_page_height_invariant [Block.mk "a".toList 2000 false] 1000
    [Block.mk "a".toList 2000 false] (by decide)

/-- C4: at a break marker the loop closes the current page exactly when it
is non-empty (resetting page and accumulator), is a no-op on an empty
current page, contributes no content (the marker's content never appears in
either continuation), and no page of any pagination output is ever
empty. -/
theorem c4_break_marker (maxH : Nat) (b : Block) (hb : b.isBreak = true)
    (bs : List Block) (pages : List (List Str)) (cur : List Str) (curH : Nat) :
    (cur ≠ [] →
      pagRun maxH (b :: bs) pages cur curH = pagRun maxH bs (pages ++ [cur]) [] 0) ∧
    (cur = [] →
      pagRun maxH (b :: bs) pages cur curH = pagRun maxH bs pages cur curH) ∧
    (∀ (blocks : List Block) (mh : Nat), ∀ pg ∈ paginate blocks mh, pg ≠ []) := by
  refine ⟨fun hc => ?_, fun hc => ?_, fun blocks mh pg hpg => ?_⟩
  · simp [pagRun, hb, hc]
  · simp [pagRun, hb, hc]
  · simp only [paginate] at hpg
    by_cases hE : pagRun mh blocks [] [] 0 = []
    · rw [if_pos hE] at hpg
      rw [List.mem_singleton] at hpg
      subst hpg
      simp
    · rw [if_neg hE] at hpg
      exact pagRun_ne_nil mh blocks [] [] 0
        (fun q hq => absurd hq (List.not_mem_nil q)) pg hpg

/-- Witness for C4 at a concrete break marker and non-empty current page. -/
theorem c4_witness :
    (["x".toList] ≠ [] →
      pagRun 5 [Block.mk "m".toList 0 true] [] ["x".toList] 3 =
        pagRun 5 [] ([] ++ [["x".toList]]) [] 0) ∧
    (["x".toList] = [] →
      pagRun 5 [Block.mk "m".toList 0 true] [] ["x".toList] 3 =
        pagRun 5 [] [] ["x".toList] 3) ∧
    (∀ (blocks : List Block) (mh : Nat), ∀ pg ∈ paginate blocks mh, pg ≠ []) :=
  c4_break_marker 5 (Block.mk "m".toList 0 true) (by decide) [] [] ["x".toList] 3

/-- C7: a document whose pagination pass produces no page — empty, or
consisting only of break markers — yields exactly one page with empty
content, and the output page sequence is never empty. -/
theorem c7_empty_document (blocks : List Block) (maxH : Nat)
    (h : ∀ b ∈ blocks, b.isBreak = true) :
    paginate blocks maxH = [[([] : Str)]] ∧
    ∀ (bs : List Block) (mh : Nat), paginate bs mh ≠ [] := by
  constructor
  · simp only [paginate]
    rw [pagRun_all_breaks maxH blocks h [] 0]
    simp
  · intro bs mh
    simp only [paginate]
    by_cases hE : pagRun mh bs [] [] 0 = []
    · rw [if_pos hE]
      simp
    · rw [if_neg hE]
      exact hE

/-- Witness for C7 at the empty document. -/
theorem c7_witness :
    paginate [] 1000 = [[([] : Str)]] ∧
    ∀ (bs : List Block) (mh : Nat), paginate bs mh ≠ [] :=
  c7_empty_document [] 1000 (by decide)

/-! ## Lemmas about the frontmatter parser -/

/-- The prefix check is prefix decomposition. -/
theorem isStart_iff (p : Str) :
    ∀ s : Str, isStart p s = true ↔ ∃ t, s = p ++ t := by
  induction p with
  | nil =>
    intro s
    simp [isStart]
  | cons a ps ih =>
    intro s
    cases s with
    | nil =>
      simp [isStart]
    | cons c cs =>
      rw [isStart]
      simp only [Bool.and_eq_true, decide_eq_true_eq, ih cs]
      constructor
      · rintro ⟨rfl, t, rfl⟩
        exact ⟨t, rfl⟩
      · rintro ⟨t, ht⟩
        rw [List.cons_append] at ht
        injection ht with h1 h2
        exact ⟨h1.symm, t, h2⟩

/-- Dropping the closing pattern's length from a list it starts drops
exactly it. -/
theorem drop_fmClose (t : Str) : (fmClose ++ t).drop 5 = t := by
  have h5 : fmClose.length = 5 := by decide
  rw [← h5, List.drop_left]

/-- Soundness of the lazy search: a hit decomposes the text around the
closing pattern. -/
theorem findClose_eq_some (s : Str) :
    ∀ g b, findClose s = some (g, b) → s = g ++ fmClose ++ b := by
  induction s with
  | nil =>
    intro g b h
    simp [findClose] at h
  | cons c cs ih =>
    intro g b h
    rw [findClose] at h
    by_cases hp : isStart fmClose (c :: cs) = true
    · rw [if_pos hp] at h
      rcases (isStart_iff fmClose (c :: cs)).1 hp with ⟨t, ht⟩
      rw [ht, drop_fmClose] at h
      injection h with h'
      injection h' with h1 h2
      rw [ht, ← h1, ← h2]
      simp
    · rw [if_neg hp] at h
      cases hfc : findClose cs with
      | none =>
        rw [hfc] at h
        exact absurd h (by simp)
      | some gb =>
        rw [hfc] at h
        injection h with h'
        injection h' with h1 h2
        have := ih gb.1 gb.2 (by rw [hfc])
        rw [← h1, ← h2, this]
        simp

/-- Completeness of the lazy search: when the closing pattern occurs, the
search succeeds. -/
theorem findClose_ne_none (g : Str) :
    ∀ b : Str, findClose (g ++ fmClose ++ b) ≠ none := by
  induction g with
  | nil =>
    intro b
    have hp : isStart fmClose (([] : Str) ++ fmClose ++ b) = true := by
      rw [isStart_iff]
      exact ⟨b, by simp⟩
    cases hs : ([] : Str) ++ fmClose ++ b with
    | nil => simp [fmClose] at hs
    | cons c cs =>
      rw [← hs]
      simp only [List.nil_append] at hs ⊢
      rw [hs, findClose, if_pos (by rw [← hs]; simpa using hp)]
      simp
  | cons c g ih =>
    intro b
    rw [List.cons_append, List.cons_append, findClose]
    by_cases hp : isStart fmClose (c :: (g ++ fmClose ++ b)) = true
    · rw [if_pos hp]
      simp
    · rw [if_neg hp]
      cases hfc : findClose (g ++ fmClose ++ b) with
      | none => exact absurd hfc (ih b)
      | some gb => simp

/-- The claims about the frontmatter parser use this decomposition of the
regex match. -/
theorem fmMatch_some (text : Str) (g b : Str) (h : fmMatch text = some (g, b)) :
    text = fmOpen ++ g ++ fmClose ++ b := by
  rw [fmMatch] at h
  by_cases hp : isStart fmOpen text = true
  · rw [if_pos hp] at h
    rcases (isStart_iff fmOpen text).1 hp with ⟨t, ht⟩
    have h4 : fmOpen.length = 4 := by decide
    have hdrop : text.drop 4 = t := by
      rw [ht, ← h4, List.drop_left]
    rw [hdrop] at h
    have := findClose_eq_some t g b h
    rw [ht, this]
    simp
  · rw [if_neg hp] at h
    exact absurd h (by simp)

/-- C5 (amended): the parser recognizes a frontmatter block exactly when the
text begins with the delimiter line, followed by ONE OR MORE lines (the
inner text followed by a newline), followed by the delimiter line and its
terminator — the code's regex requires at least one inner line, so a block
with zero lines between the delimiters is not recognized (see the
counterexample); when recognized, the returned body is everything after the
block, and when not recognized the configuration is empty and the body is
the input unchanged. -/
theorem c5_frontmatter (text : Str) :
    (fmMatch text ≠ none ↔ ∃ g body, text = fmOpen ++ g ++ fmClose ++ body) ∧
    (∀ g body, fmMatch text = some (g, body) →
      text = fmOpen ++ g ++ fmClose ++ body ∧ (parseFrontmatter text).2 = body) ∧
    (fmMatch text = none → parseFrontmatter text = ([], text)) := by
  refine ⟨⟨?_, ?_⟩, ?_, ?_⟩
  · intro h
    cases hm : fmMatch text with
    | none => exact absurd hm h
    | some gb =>
      exact ⟨gb.1, gb.2, fmMatch_some text gb.1 gb.2 (by rw [hm])⟩
  · rintro ⟨g, body, rfl⟩
    rw [fmMatch]
    have hp : isStart fmOpen (fmOpen ++ g ++ fmClose ++ body) = true := by
      rw [isStart_iff]
      exact ⟨g ++ fmClose ++ body, by simp⟩
    rw [if_pos hp]
    have h4 : fmOpen.length = 4 := by decide
    have hdrop : (fmOpen ++ g ++ fmClose ++ body).drop 4 = g ++ fmClose ++ body := by
      rw [List.append_assoc, List.append_assoc, ← h4, List.drop_left, ← List.append_assoc]
    rw [hdrop]
    exact findClose_ne_none g body
  · intro g body h
    refine ⟨fmMatch_some text g body h, ?_⟩
    rw [parseFrontmatter, h]
  · intro h
    rw [parseFrontmatter, h]

/-- Counterexample for C5 as stated: a block with zero lines between the
delimiters has the claimed shape, yet the parser does not recognize it —
the body is the whole input, not the text after the block. -/
theorem c5_counterexample :
    ("---\n---\nBody".toList : Str) =
      "---\n".toList ++ "---\n".toList ++ "Body".toList ∧
    parseFrontmatter "---\n---\nBody".toList = ([], "---\n---\nBody".toList) ∧
    ("---\n---\nBody".toList : Str) ≠ "Body".toList := by
  refine ⟨by decide, by decide, by decide⟩

/-! ## Lemmas about the image renderer -/

/-- Splitting never yields an empty segment list. -/
theorem splitOn_ne_nil (sep : Char) : ∀ s : Str, splitOn sep s ≠ [] := by
  intro s
  induction s with
  | nil => simp [splitOn]
  | cons c cs ih =>
    rw [splitOn]
    by_cases hc : c = sep
    · rw [if_pos hc]
      simp
    · rw [if_neg hc]
      cases hsc : splitOn sep cs with
      | nil => exact absurd hsc ih
      | cons h t => simp

/-- The first segment of the split is the portion before the first
separator. -/
theorem splitOn_headD (sep : Char) :
    ∀ s : Str, (splitOn sep s).headD [] = s.takeWhile (fun c => c != sep) := by
  intro s
  induction s with
  | nil => simp [splitOn]
  | cons c cs ih =>
    rw [splitOn]
    by_cases hc : c = sep
    · rw [if_pos hc]
      simp [List.takeWhile_cons, hc]
    · rw [if_neg hc]
      cases hsc : splitOn sep cs with
      | nil => exact absurd hsc (splitOn_ne_nil sep cs)
      | cons h t =>
        rw [hsc] at ih
        simp only [List.headD_cons] at ih
        simp [List.takeWhile_cons, hc, ← ih]

/-- The renderer's if-chain emits exactly the class attribute the
specification's table assigns to the directive. -/
theorem classAttr_spec (d : Str) :
    (if classFor (lowerStr d) = [] then ([] : Str)
     else " class=\"".toList ++ classFor (lowerStr d) ++ "\"".toList) =
      (match specDirectiveClass d with
       | some c => " class=\"".toList ++ c ++ "\"".toList
       | none => ([] : Str)) := by
  simp only [classFor, specDirectiveClass]
  split_ifs <;>
    first
      | rfl
      | exact absurd rfl (by assumption)
      | exact absurd (show _ = ([] : Str) by assumption) (by decide)

/-- C6 (amended): the image renderer emits as source the portion of the URL
before the first hash sign, and its class attribute is the specification's
exact, case-insensitive directive table applied to the SEGMENT BETWEEN THE
FIRST AND SECOND hash sign (everything after the first hash sign when there
is only one) — not to the whole portion after the first hash sign, see the
counterexample; a missing or unrecognized directive yields no class
attribute, as on the specification's three examples. -/
theorem c6_image_directive (href : Str) :
    image (some href) none none =
      "<img src=\"".toList ++ (splitOn '#' href).headD [] ++ "\"".toList ++
        (match specDirectiveClass ((splitOn '#' href)[1]?.getD []) with
         | some c => " class=\"".toList ++ c ++ "\"".toList
         | none => ([] : Str)) ++ " />".toList ∧
    (splitOn '#' href).headD [] = href.takeWhile (fun c => c != '#') ∧
    image (some "a.png#float-left".toList) none none =
      "<img src=\"a.png\" class=\"float-left\" />".toList ∧
    image (some "a.png#bogus".toList) none none = "<img src=\"a.png\" />".toList ∧
    image (some "a.png".toList) none none = "<img src=\"a.png\" />".toList := by
  refine ⟨?_, splitOn_headD '#' href, by decide, by decide, by decide⟩
  simp only [image]
  cases h1 : (splitOn '#' href)[1]? with
  | none =>
    simp [h1, classFor, specDirectiveClass, lowerStr]
  | some r =>
    by_cases hr : r = []
    · simp [h1, hr, classFor, specDirectiveClass, lowerStr]
    · simp only [h1, Option.getD_some]
      rw [if_neg hr, ← classAttr_spec r]
      simp

/-- Counterexample for C6 as stated: with two hash signs the portion after
the first hash sign is not in the directive table, so the claim assigns no
class, yet the renderer maps the segment between the hash signs and emits
one. -/
theorem c6_counterexample :
    image (some "a.png#left#x".toList) none none =
      "<img src=\"a.png\" class=\"align-left\" />".toList ∧
    specDirectiveClass "left#x".toList = none ∧
    image (some "a.png#left#x".toList) none none ≠ "<img src=\"a.png\" />".toList := by
  refine ⟨by decide, by decide, by decide⟩

/-! ## The AI service layer and the page decorator -/

/-- Trimming an all-whitespace string yields the empty string. -/
theorem jsTrim_eq_nil (s : Str) (h : ∀ c ∈ s, c.isWhitespace = true) :
    jsTrim s = [] := by
  have h1 : s.dropWhile Char.isWhitespace = [] := List.dropWhile_eq_nil_iff.2 h
  rw [jsTrim, h1]
  simp

/-- C8 (amended): when the external text-generation call fails, the grammar,
tone and summary actions leave the document buffer unmodified, provided the
buffer is not blank (a blank buffer never reaches the external call); the
table-of-contents action, however, swallows the failure inside the service
(which returns the empty string) and sets the buffer to two newlines
prepended to its previous value — it does not leave the buffer unmodified,
see the counterexample. -/
theorem c8_failure_buffer (markdown e : Str) (action : AiAction) :
    (action ≠ AiAction.toc → jsTrim markdown ≠ [] →
      handleAiAction action markdown (Except.error e) = markdown) ∧
    handleAiAction AiAction.toc markdown (Except.error e) = "\n\n".toList ++ markdown := by
  constructor
  · intro hna htrim
    cases action with
    | toc => exact absurd rfl hna
    | grammar => simp [handleAiAction, enhanceMarkdown, htrim]
    | professional => simp [handleAiAction, enhanceMarkdown, htrim]
    | summarize => simp [handleAiAction, enhanceMarkdown, htrim]
  · simp [handleAiAction, generateTableOfContents]

/-- Counterexample for C8 as stated: on failure of the external call, the
table-of-contents action changes the buffer by prepending two newlines. -/
theorem c8_counterexample :
    handleAiAction AiAction.toc "Hello".toList (Except.error "boom".toList) =
      "\n\nHello".toList ∧
    handleAiAction AiAction.toc "Hello".toList (Except.error "boom".toList) ≠
      "Hello".toList := by
  refine ⟨by decide, by decide⟩

/-- C9 (amended): the background opacity is the bg-opacity value given to
parseFloat when the value is present and non-empty, and defaults to 1 when
the key is absent or its value empty; a non-empty value that parseFloat
cannot parse yields NaN, NOT the default 1 — see the counterexample. -/
theorem c9_bg_opacity (cfg : List (Str × Str)) :
    (configLookup cfg bgOpacityKey = none → bgOpacity cfg = JsNum.val 1) ∧
    (configLookup cfg bgOpacityKey = some [] → bgOpacity cfg = JsNum.val 1) ∧
    (∀ v, configLookup cfg bgOpacityKey = some v → v ≠ [] →
      bgOpacity cfg = jsParseFloat v) ∧
    jsParseFloat "0.5".toList = JsNum.val (1 / 2) ∧
    jsParseFloat "abc".toList = JsNum.nan := by
  refine ⟨?_, ?_, ?_, ?_, by decide⟩
  · intro h
    rw [bgOpacity, h]
  · intro h
    rw [bgOpacity, h]
    simp
  · intro v h hv
    rw [bgOpacity, h]
    exact if_neg hv
  · simp +decide [jsParseFloat, readSign, readExp, digitsVal]
    norm_num

/-- Counterexample for C9 as stated: an unparsable non-empty bg-opacity
value gives NaN, not the claimed default 1. -/
theorem c9_counterexample :
    bgOpacity [(bgOpacityKey, "abc".toList)] = JsNum.nan ∧
    bgOpacity [(bgOpacityKey, "abc".toList)] ≠ JsNum.val 1 := by
  refine ⟨by decide, by decide⟩

/-- C10: on an input consisting only of whitespace (or empty), the enhance
function returns the empty string for every instruction and every outcome of
the external call — the result does not depend on the external
text-generation collaborator, which is therefore never consulted. -/
theorem c10_whitespace_no_call (text instruction : Str) (api : Except Str Str)
    (h : ∀ c ∈ text, c.isWhitespace = true) :
    enhanceMarkdown text instruction api = Except.ok [] := by
  unfold enhanceMarkdown
  rw [if_pos (jsTrim_eq_nil text h)]

/-- Witness for C10 at a concrete whitespace-only input, with a failing
external call. -/
theorem c10_witness :
    enhanceMarkdown " \n ".toList "Fix grammar and spelling mistakes.".toList
        (Except.error "boom".toList) = Except.ok [] :=
  c10_whitespace_no_call " \n ".toList "Fix grammar and spelling mistakes.".toList
    (Except.error "boom".toList) (by decide)

end MarkdownToPdf
